import Mathlib

/-!
# Verification of the pedoni crowd-simulation core

Shallow embedding of the pedoni repository's navigation-field and
social-force subsystems (`pedoni-simulator/src/field.rs`, `util.rs`,
`neighbor_grid.rs`, `models/sfm.rs`, `models/sfm_gpu.rs`, and the sibling
revision `src/simulator/field.rs`), with theorems settling the frozen
claims about them.

Modelling conventions:
* `f32` values are embedded as exact rationals (`ℚ`); decimal literals of
  the source become exact decimal rationals.  Arithmetic is exact: the
  claims are about the algorithms, not about rounding.
* `f32::sqrt` has no exact rational counterpart, so every definition that
  needs it takes a square-root function `sq : ℚ → ℚ` as an explicit
  parameter; theorems that depend on properties of the square root state
  them as hypotheses about `sq` at the values actually used.
* Rust panics (out-of-bounds `Vec` indexing, `Result::unwrap` on `Err`,
  NaN produced by normalizing a zero vector) are modelled by `Option` /
  explicit outcome constructors.
* `ndarray::Array2` grids are embedded as a shape plus a total value
  function over `ℤ × ℤ`; the checked accessor (`Array2::get` with the
  custom `Index` that rejects negative coordinates,
  `pedoni-simulator/src/util.rs`) returns `Option`.
-/

namespace Pedoni

/-- Two-dimensional vector of rationals, embedding `glam::Vec2`. -/
structure V2 where
  x : ℚ
  y : ℚ
deriving DecidableEq, Repr

instance : Add V2 := ⟨fun a b => ⟨a.x + b.x, a.y + b.y⟩⟩

instance : Sub V2 := ⟨fun a b => ⟨a.x - b.x, a.y - b.y⟩⟩

instance : Neg V2 := ⟨fun a => ⟨-a.x, -a.y⟩⟩

/-- Scalar multiple of a vector (`v * c` on `glam::Vec2`). -/
def smulQ (c : ℚ) (v : V2) : V2 := ⟨c * v.x, c * v.y⟩

/-- Squared Euclidean length (`Vec2::length_squared`). -/
def lengthSq (v : V2) : ℚ := v.x * v.x + v.y * v.y

theorem V2.add_def (a b : V2) : a + b = ⟨a.x + b.x, a.y + b.y⟩ := rfl

theorem V2.sub_def (a b : V2) : a - b = ⟨a.x - b.x, a.y - b.y⟩ := rfl

theorem V2.neg_def (a : V2) : -a = ⟨-a.x, -a.y⟩ := rfl

/-- Grid cell index, embedding `util::Index { y: i32, x: i32 }`. -/
structure Ix where
  x : ℤ
  y : ℤ
deriving DecidableEq, Repr

/-- Embedding of `Index::add` from `pedoni-simulator/src/util.rs`. -/
def Ix.add (ix : Ix) (i j : ℤ) : Ix := ⟨ix.x + i, ix.y + j⟩

/-- A 2-D scalar grid (`ndarray::Array2<f32>`): shape `(rows, cols)` plus a
value function.  Only in-bounds cells are ever read through `gget`. -/
structure GridQ where
  rows : ℕ
  cols : ℕ
  val : ℤ → ℤ → ℚ

/-- In-bounds test for the checked `Array2` accessor with the custom
`Index` (negative coordinates are rejected, `util.rs` lines 29-41). -/
def inBounds (rows cols : ℕ) (ix : Ix) : Prop :=
  0 ≤ ix.x ∧ ix.x < (cols : ℤ) ∧ 0 ≤ ix.y ∧ ix.y < (rows : ℤ)

instance (rows cols : ℕ) (ix : Ix) : Decidable (inBounds rows cols ix) := by
  unfold inBounds; infer_instance

/-- Checked grid read, embedding `Array2::get(Index)`. -/
def gget (g : GridQ) (ix : Ix) : Option ℚ :=
  if inBounds g.rows g.cols ix then some (g.val ix.x ix.y) else none

/-- The out-of-grid sentinel `FMAX = 1e12` local to `util::bilinear`. -/
def FMAXS : ℚ := 10 ^ 12

/-- Embedding of `util::bilinear` (`pedoni-simulator/src/util.rs` lines 44-58): bilinear
interpolation over the four cells around `pos`, substituting the sentinel
`1e12` for out-of-grid corners. -/
def bilinear (g : GridQ) (pos : V2) : ℚ :=
  let bx : ℤ := ⌊pos.x⌋
  let bv : ℤ := ⌊pos.y⌋
  let tx : ℚ := pos.x - bx
  let ty : ℚ := pos.y - bv
  let sx : ℚ := 1 - tx
  let sy : ℚ := 1 - ty
  sy * sx * ((gget g ⟨bx, bv⟩).getD FMAXS) +
    sy * tx * ((gget g ⟨bx + 1, bv⟩).getD FMAXS) +
    ty * sx * ((gget g ⟨bx, bv + 1⟩).getD FMAXS) +
    ty * tx * ((gget g ⟨bx + 1, bv + 1⟩).getD FMAXS)

/-- The `Field` query layer: per-waypoint potential maps and the cell size
(`pedoni-simulator/src/field.rs` lines 194-205; the obstacle grids are not
needed by the claims). -/
structure FieldQ where
  unit : ℚ
  potential_maps : List GridQ

/-- Embedding of `Field::get_potential` (`field.rs` lines 235-239).  The source indexes
`self.potential_maps[waypoint_id]` with no bounds check, which panics for
an out-of-range id; the panic is modelled as `none`.
`Field::get_field_potential` (called from `models/sfm.rs`) is the same
function under its name in the sibling revision
`src/simulator/field.rs` lines 248-253. -/
def getPotential (f : FieldQ) (waypoint_id : ℕ) (position : V2) : Option ℚ :=
  match f.potential_maps.get? waypoint_id with
  | none => none
  | some g =>
      some (bilinear g ⟨position.x / f.unit - 1 / 2, position.y / f.unit - 1 / 2⟩)

/-- The 3×3 finite-difference (Sobel-style) stencil over interpolated
samples, embedding the body of `Field::get_potential_grad`
(`src/simulator/field.rs` lines 260-295; `pedoni-simulator`'s
`util::sobel_filter` is the same stencil factored out, its source file not
shipping that function).  The x weight is `(if y == 0 then 2 else 1) * -x`
and the y weight `(if x == 0 then 2 else 1) * -y`, exactly as in the
source loops. -/
def sobelGrad (g : GridQ) (p : V2) : V2 :=
  let gx : ℚ :=
    List.foldl
      (fun acc (yo : ℤ) =>
        List.foldl
          (fun acc (xo : ℤ) =>
            let u := bilinear g (p + ⟨(xo : ℚ), (yo : ℚ)⟩)
            acc + u * ((if yo = 0 then 2 else 1) * (-(xo : ℚ))))
          acc [-1, 1])
      0 [-1, 0, 1]
  let gy : ℚ :=
    List.foldl
      (fun acc (xo : ℤ) =>
        List.foldl
          (fun acc (yo : ℤ) =>
            let u := bilinear g (p + ⟨(xo : ℚ), (yo : ℚ)⟩)
            acc + u * ((if xo = 0 then 2 else 1) * (-(yo : ℚ))))
          acc [-1, 1])
      0 [-1, 0, 1]
  ⟨gx, gy⟩

/-- Embedding of `Field::get_potential_grad` (`pedoni-simulator/src/field.rs` lines
248-252): unchecked `potential_maps[waypoint_id]` (panic modelled as
`none`), then the Sobel stencil at grid-local coordinates. -/
def getPotentialGrad (f : FieldQ) (waypoint_id : ℕ) (position : V2) : Option V2 :=
  match f.potential_maps.get? waypoint_id with
  | none => none
  | some g =>
      some (sobelGrad g ⟨position.x / f.unit - 1 / 2, position.y / f.unit - 1 / 2⟩)

/-- Modelled from the spec: the claim's reading of the stencil — "a 2D
vector pointing toward increasing potential", i.e. the same 3×3 Sobel
stencil with weights `+x` / `+y` so that the component is positive where
the sampled potential increases along that axis.  Used only as the
comparison point for the gradient-direction claim. -/
def sobelGradTowardIncreasing (g : GridQ) (p : V2) : V2 :=
  let gx : ℚ :=
    List.foldl
      (fun acc (yo : ℤ) =>
        List.foldl
          (fun acc (xo : ℤ) =>
            let u := bilinear g (p + ⟨(xo : ℚ), (yo : ℚ)⟩)
            acc + u * ((if yo = 0 then 2 else 1) * (xo : ℚ)))
          acc [-1, 1])
      0 [-1, 0, 1]
  let gy : ℚ :=
    List.foldl
      (fun acc (xo : ℤ) =>
        List.foldl
          (fun acc (yo : ℤ) =>
            let u := bilinear g (p + ⟨(xo : ℚ), (yo : ℚ)⟩)
            acc + u * ((if xo = 0 then 2 else 1) * (yo : ℚ)))
          acc [-1, 1])
      0 [-1, 0, 1]
  ⟨gx, gy⟩

/-- Modelled from the spec: the Field-level wrapper of
`sobelGradTowardIncreasing`, the claim-side counterpart of
`getPotentialGrad`. -/
def getPotentialGradTowardIncreasing (f : FieldQ) (waypoint_id : ℕ) (position : V2) :
    Option V2 :=
  match f.potential_maps.get? waypoint_id with
  | none => none
  | some g =>
      some (sobelGradTowardIncreasing g
        ⟨position.x / f.unit - 1 / 2, position.y / f.unit - 1 / 2⟩)

end Pedoni

namespace Pedoni

/-- Concrete 3×3 potential map whose value strictly increases with `x`
(value at `(x, y)` is `x`): the test instance for the gradient-direction
claim. -/
def c4grid : GridQ := ⟨3, 3, fun x _ => (x : ℚ)⟩

/-- Concrete field wrapping `c4grid` with unit cell size. -/
def c4field : FieldQ := ⟨1, [c4grid]⟩

/-- C4 counterexample. -/
theorem c4_counterexample :
    bilinear c4grid ⟨0, 1⟩ < bilinear c4grid ⟨2, 1⟩ ∧
    (sobelGrad c4grid ⟨1, 1⟩).x < 0 ∧
    getPotentialGrad c4field 0 ⟨3 / 2, 3 / 2⟩ = some ⟨-8, 0⟩ := by
  refine ⟨?_, ?_, ?_⟩ <;>
    norm_num [bilinear, sobelGrad, getPotentialGrad, c4field, c4grid, gget, inBounds,
      FMAXS, V2.add_def, List.foldl, List.get?]

/-- C4 amended. -/
theorem c4_gradient_negated (g : GridQ) (p : V2) (f : FieldQ) (wid : ℕ) (pos : V2) :
    sobelGrad g p = -(sobelGradTowardIncreasing g p) ∧
    getPotentialGrad f wid pos =
      Option.map (fun v => -v) (getPotentialGradTowardIncreasing f wid pos) := by
  have base : ∀ (g' : GridQ) (p' : V2),
      sobelGrad g' p' = -(sobelGradTowardIncreasing g' p') := by
    intro g' p'
    simp only [sobelGrad, sobelGradTowardIncreasing, List.foldl, V2.neg_def, V2.mk.injEq]
    constructor <;> ring
  refine ⟨base g p, ?_⟩
  unfold getPotentialGrad getPotentialGradTowardIncreasing
  cases f.potential_maps.get? wid with
  | none => rfl
  | some g' => simp [base]

end Pedoni

namespace Pedoni

/-- Unfolding lemma for `inBounds` at a literal index. -/
theorem inBounds_mk (rows cols : ℕ) (a b : ℤ) :
    inBounds rows cols ⟨a, b⟩ ↔ 0 ≤ a ∧ a < (cols : ℤ) ∧ 0 ≤ b ∧ b < (rows : ℤ) :=
  Iff.rfl

/-- C10. -/
theorem c10_waypoint_index_panics (f : FieldQ) (wid : ℕ) (pos : V2)
    (h : f.potential_maps.length ≤ wid) :
    getPotential f wid pos = none ∧ getPotentialGrad f wid pos = none := by
  have hn : f.potential_maps.get? wid = none := List.get?_eq_none.mpr h
  unfold getPotential getPotentialGrad
  rw [hn]
  exact ⟨rfl, rfl⟩

/-- Field with a single potential map, used as the concrete instance for
the out-of-range waypoint-id claim. -/
def c10field : FieldQ := ⟨1, [⟨2, 2, fun _ _ => 0⟩]⟩

/-- C10 witness. -/
theorem c10_witness :
    c10field.potential_maps.length ≤ 1 ∧
      (getPotential c10field 1 ⟨0, 0⟩ = none ∧ getPotentialGrad c10field 1 ⟨0, 0⟩ = none) :=
  ⟨Nat.le_refl 1, c10_waypoint_index_panics c10field 1 ⟨0, 0⟩ (Nat.le_refl 1)⟩

/-- Outside-the-grid predicate: the world position is not within the rectangle
covered by the grid (cell size `unit`, `cols × rows` cells anchored at the
origin). -/
def outsideGrid (unit : ℚ) (g : GridQ) (pos : V2) : Prop :=
  pos.x < 0 ∨ pos.y < 0 ∨ (g.cols : ℚ) * unit < pos.x ∨ (g.rows : ℚ) * unit < pos.y

/-- All-zero 2×2 potential map for the out-of-grid sentinel claim. -/
def c6map : GridQ := ⟨2, 2, fun _ _ => 0⟩

/-- Field wrapping `c6map`, unit cell size. -/
def c6field : FieldQ := ⟨1, [c6map]⟩

/-- C6 counterexample. -/
theorem c6_counterexample :
    c6field.potential_maps.get? 0 = some c6map ∧
    outsideGrid c6field.unit c6map ⟨21 / 10, 1⟩ ∧
    getPotential c6field 0 ⟨21 / 10, 1⟩ = some 600000000000 ∧
    (600000000000 : ℚ) < 10 ^ 12 := by
  refine ⟨rfl, ?_, ?_, by norm_num⟩
  · norm_num [outsideGrid, c6field, c6map]
  · norm_num [getPotential, c6field, c6map, bilinear, gget, inBounds, FMAXS, List.get?]

/-- Helper: when both sampled columns are outside the grid, bilinear
interpolation returns exactly the sentinel. -/
theorem bilinear_allOut_x (g : GridQ) (pos : V2)
    (h : ⌊pos.x⌋ + 1 < 0 ∨ (g.cols : ℤ) ≤ ⌊pos.x⌋) :
    bilinear g pos = FMAXS := by
  have h1 : ¬ inBounds g.rows g.cols ⟨⌊pos.x⌋, ⌊pos.y⌋⟩ := by
    simp only [inBounds_mk]; omega
  have h2 : ¬ inBounds g.rows g.cols ⟨⌊pos.x⌋ + 1, ⌊pos.y⌋⟩ := by
    simp only [inBounds_mk]; omega
  have h3 : ¬ inBounds g.rows g.cols ⟨⌊pos.x⌋, ⌊pos.y⌋ + 1⟩ := by
    simp only [inBounds_mk]; omega
  have h4 : ¬ inBounds g.rows g.cols ⟨⌊pos.x⌋ + 1, ⌊pos.y⌋ + 1⟩ := by
    simp only [inBounds_mk]; omega
  simp only [bilinear, gget, h1, h2, h3, h4, if_false, Option.getD]
  ring

/-- Helper: when both sampled rows are outside the grid, bilinear
interpolation returns exactly the sentinel. -/
theorem bilinear_allOut_y (g : GridQ) (pos : V2)
    (h : ⌊pos.y⌋ + 1 < 0 ∨ (g.rows : ℤ) ≤ ⌊pos.y⌋) :
    bilinear g pos = FMAXS := by
  have h1 : ¬ inBounds g.rows g.cols ⟨⌊pos.x⌋, ⌊pos.y⌋⟩ := by
    simp only [inBounds_mk]; omega
  have h2 : ¬ inBounds g.rows g.cols ⟨⌊pos.x⌋ + 1, ⌊pos.y⌋⟩ := by
    simp only [inBounds_mk]; omega
  have h3 : ¬ inBounds g.rows g.cols ⟨⌊pos.x⌋, ⌊pos.y⌋ + 1⟩ := by
    simp only [inBounds_mk]; omega
  have h4 : ¬ inBounds g.rows g.cols ⟨⌊pos.x⌋ + 1, ⌊pos.y⌋ + 1⟩ := by
    simp only [inBounds_mk]; omega
  simp only [bilinear, gget, h1, h2, h3, h4, if_false, Option.getD]
  ring

/-- C6 amended. -/
theorem c6_far_outside_sentinel (f : FieldQ) (g : GridQ) (wid : ℕ) (pos : V2)
    (hg : f.potential_maps.get? wid = some g) (hu : 0 < f.unit)
    (hout : pos.x < -(f.unit / 2) ∨ ((g.cols : ℚ) + 1 / 2) * f.unit ≤ pos.x ∨
      pos.y < -(f.unit / 2) ∨ ((g.rows : ℚ) + 1 / 2) * f.unit ≤ pos.y) :
    getPotential f wid pos = some FMAXS := by
  have hune : f.unit ≠ 0 := ne_of_gt hu
  simp only [getPotential, hg]
  congr 1
  rcases hout with h | h | h | h
  · apply bilinear_allOut_x
    left
    show ⌊pos.x / f.unit - 1 / 2⌋ + 1 < 0
    have h2 := div_lt_div_of_pos_right h hu
    have h3 : -(f.unit / 2) / f.unit = -(1 / 2) := by field_simp; ring
    rw [h3] at h2
    have hfl : ⌊pos.x / f.unit - 1 / 2⌋ < (-1 : ℤ) := by
      apply Int.floor_lt.mpr; push_cast; linarith
    omega
  · apply bilinear_allOut_x
    right
    show (g.cols : ℤ) ≤ ⌊pos.x / f.unit - 1 / 2⌋
    have hd : (g.cols : ℚ) + 1 / 2 ≤ pos.x / f.unit := (le_div_iff₀ hu).mpr h
    apply Int.le_floor.mpr
    push_cast
    linarith
  · apply bilinear_allOut_y
    left
    show ⌊pos.y / f.unit - 1 / 2⌋ + 1 < 0
    have h2 := div_lt_div_of_pos_right h hu
    have h3 : -(f.unit / 2) / f.unit = -(1 / 2) := by field_simp; ring
    rw [h3] at h2
    have hfl : ⌊pos.y / f.unit - 1 / 2⌋ < (-1 : ℤ) := by
      apply Int.floor_lt.mpr; push_cast; linarith
    omega
  · apply bilinear_allOut_y
    right
    show (g.rows : ℤ) ≤ ⌊pos.y / f.unit - 1 / 2⌋
    have hd : (g.rows : ℚ) + 1 / 2 ≤ pos.y / f.unit := (le_div_iff₀ hu).mpr h
    apply Int.le_floor.mpr
    push_cast
    linarith

/-- C6 witness. -/
theorem c6_witness :
    c6field.potential_maps.get? 0 = some c6map ∧ (0 : ℚ) < c6field.unit ∧
      (((-5 : ℚ)) < -(c6field.unit / 2) ∨
        ((c6map.cols : ℚ) + 1 / 2) * c6field.unit ≤ -5 ∨
        ((0 : ℚ)) < -(c6field.unit / 2) ∨
        ((c6map.rows : ℚ) + 1 / 2) * c6field.unit ≤ 0) ∧
      getPotential c6field 0 ⟨-5, 0⟩ = some FMAXS :=
  ⟨rfl, by norm_num [c6field], by norm_num [c6field, c6map],
    c6_far_outside_sentinel c6field c6map 0 ⟨-5, 0⟩ rfl (by norm_num [c6field])
      (by norm_num [c6field, c6map])⟩

end Pedoni

namespace Pedoni

/-- Embedding of `glam::Vec2::clamp_length_max` in exact arithmetic: if the squared
length exceeds `max²`, rescale by `max / sqrt(length²)` (the square root
supplied as the parameter `sq`), else return the vector unchanged. -/
def clampLengthMax (sq : ℚ → ℚ) (v : V2) (m : ℚ) : V2 :=
  let lsq := lengthSq v
  if m * m < lsq then smulQ (m * (sq lsq)⁻¹) v else v

/-- CPU integration step (`models/sfm.rs` lines 190-201): one pedestrian's
`(position, velocity)` update from its acceleration.  Returns the new
`(position, velocity)`. -/
def cpuIntegrate (sq : ℚ → ℚ) (pos vel acc : V2) (desired_speed : ℚ) : V2 × V2 :=
  let vel_prev := vel
  let vel1 := vel + smulQ (1 / 10) acc
  let vel2 := clampLengthMax sq vel1 (desired_speed * (13 / 10))
  let pos2 := pos + smulQ (1 / 20) (vel2 + vel_prev)
  (pos2, vel2)

/-- GPU host-side integration step (`models/sfm_gpu.rs` lines 179-191):
textually the same update, performed after reading back the kernel's
acceleration buffer (`Float2` ↔ `Vec2` conversions are identities). -/
def gpuIntegrate (sq : ℚ → ℚ) (pos vel acc : V2) (desired_speed : ℚ) : V2 × V2 :=
  let vel_prev := vel
  let v := vel_prev + smulQ (1 / 10) acc
  let v2 := clampLengthMax sq v (desired_speed * (13 / 10))
  let p := pos + smulQ (1 / 20) (v2 + vel_prev)
  (p, v2)

/-- C7. -/
theorem c7_integration (sq : ℚ → ℚ) (pos vel acc : V2) (ds : ℚ)
    (hsq : sq (lengthSq (vel + smulQ (1 / 10) acc)) * sq (lengthSq (vel + smulQ (1 / 10) acc)) =
      lengthSq (vel + smulQ (1 / 10) acc)) :
    cpuIntegrate sq pos vel acc ds = gpuIntegrate sq pos vel acc ds ∧
    (cpuIntegrate sq pos vel acc ds).2 =
      clampLengthMax sq (vel + smulQ (1 / 10) acc) (ds * (13 / 10)) ∧
    (cpuIntegrate sq pos vel acc ds).1 =
      pos + smulQ (1 / 10) (smulQ (1 / 2) (vel + (cpuIntegrate sq pos vel acc ds).2)) ∧
    lengthSq (cpuIntegrate sq pos vel acc ds).2 ≤ (ds * (13 / 10)) * (ds * (13 / 10)) := by
  refine ⟨rfl, rfl, ?_, ?_⟩
  · have key : ∀ (p a b : V2), p + smulQ (1 / 20) (a + b) =
        p + smulQ (1 / 10) (smulQ (1 / 2) (b + a)) := by
      intro p a b
      cases p; cases a; cases b
      simp only [smulQ, V2.add_def, V2.mk.injEq]
      constructor <;> ring
    exact key pos (cpuIntegrate sq pos vel acc ds).2 vel
  · set v1 := vel + smulQ (1 / 10) acc with hv1
    set m := ds * (13 / 10) with hm
    show lengthSq (clampLengthMax sq v1 m) ≤ m * m
    unfold clampLengthMax
    by_cases hc : m * m < lengthSq v1
    · rw [if_pos hc]
      have hpos : 0 < lengthSq v1 := lt_of_le_of_lt (mul_self_nonneg m) hc
      have hsne : sq (lengthSq v1) ≠ 0 := by
        intro h0
        rw [h0, mul_zero] at hsq
        exact absurd hsq.symm (ne_of_gt hpos)
      have hexp : lengthSq (smulQ (m * (sq (lengthSq v1))⁻¹) v1) =
          m * (sq (lengthSq v1))⁻¹ * (m * (sq (lengthSq v1))⁻¹) * lengthSq v1 := by
        cases v1 with
        | mk wx wy => simp only [smulQ, lengthSq]; ring
      rw [hexp]
      have : m * (sq (lengthSq v1))⁻¹ * (m * (sq (lengthSq v1))⁻¹) * lengthSq v1 = m * m := by
        rw [mul_comm m (sq (lengthSq v1))⁻¹, mul_assoc]
        field_simp
        nlinarith [hsq]
      rw [this]
    · rw [if_neg hc]
      exact le_of_not_lt hc

/-- C7 witness. -/
theorem c7_witness :
    ((fun _ : ℚ => (5 : ℚ)) (lengthSq (V2.mk 3 4 + smulQ (1 / 10) ⟨0, 0⟩)) *
        (fun _ : ℚ => (5 : ℚ)) (lengthSq (V2.mk 3 4 + smulQ (1 / 10) ⟨0, 0⟩)) =
      lengthSq (V2.mk 3 4 + smulQ (1 / 10) ⟨0, 0⟩)) ∧
    (cpuIntegrate (fun _ => 5) ⟨0, 0⟩ ⟨3, 4⟩ ⟨0, 0⟩ 1 =
        gpuIntegrate (fun _ => 5) ⟨0, 0⟩ ⟨3, 4⟩ ⟨0, 0⟩ 1 ∧
      (cpuIntegrate (fun _ => 5) ⟨0, 0⟩ ⟨3, 4⟩ ⟨0, 0⟩ 1).2 =
        clampLengthMax (fun _ => 5) (V2.mk 3 4 + smulQ (1 / 10) ⟨0, 0⟩) (1 * (13 / 10)) ∧
      (cpuIntegrate (fun _ => 5) ⟨0, 0⟩ ⟨3, 4⟩ ⟨0, 0⟩ 1).1 =
        V2.mk 0 0 + smulQ (1 / 10) (smulQ (1 / 2)
          (V2.mk 3 4 + (cpuIntegrate (fun _ => 5) ⟨0, 0⟩ ⟨3, 4⟩ ⟨0, 0⟩ 1).2)) ∧
      lengthSq (cpuIntegrate (fun _ => 5) ⟨0, 0⟩ ⟨3, 4⟩ ⟨0, 0⟩ 1).2 ≤
        (1 * (13 / 10)) * (1 * (13 / 10))) :=
  ⟨by norm_num [lengthSq, smulQ, V2.add_def],
    c7_integration (fun _ => 5) ⟨0, 0⟩ ⟨3, 4⟩ ⟨0, 0⟩ 1 (by norm_num [lengthSq, smulQ, V2.add_def])⟩

end Pedoni

namespace Pedoni

/-- Truncation toward zero: the semantics of Rust's `as i32` cast applied
by `Vec2::as_ivec2` in `NeighborGrid::update`. -/
def truncQ (q : ℚ) : ℤ := if 0 ≤ q then ⌊q⌋ else ⌈q⌉

/-- The cell into which `NeighborGrid::update` files a position:
`(pos / unit).as_ivec2()` (`pedoni-simulator/src/neighbor_grid.rs`
line 27), followed by `Index::new`. -/
def ngCell (unit : ℚ) (p : V2) : Ix := ⟨truncQ (p.x / unit), truncQ (p.y / unit)⟩

/-- One insertion of `NeighborGrid::update`'s loop body: pedestrian `k` is
appended to its cell's list when the cell index is in bounds
(`data.get_mut(ix)` with the negative-rejecting `Index`), and silently
dropped otherwise.  The `ThinVec` capacity reservation does not affect
contents. -/
def ngInsert (rows cols : ℕ) (k : ℕ) (c : Ix) (d : Ix → List ℕ) : Ix → List ℕ :=
  if inBounds rows cols c then (fun ix => if ix = c then d ix ++ [k] else d ix) else d

/-- The enumerated insertion loop of `NeighborGrid::update`, starting at
pedestrian index `k`. -/
def ngAux (rows cols : ℕ) (unit : ℚ) : ℕ → List V2 → (Ix → List ℕ) → Ix → List ℕ
  | _, [], d => d
  | k, p :: ps, d => ngAux rows cols unit (k + 1) ps (ngInsert rows cols k (ngCell unit p) d)

/-- Embedding of `NeighborGrid::update` (`pedoni-simulator/src/neighbor_grid.rs` lines
22-36): reset every cell to the empty list, then file each enumerated
position into `(pos / unit).as_ivec2()` when that index is in bounds. -/
def ngUpdate (rows cols : ℕ) (unit : ℚ) (ps : List V2) : Ix → List ℕ :=
  ngAux rows cols unit 0 ps (fun _ => [])

theorem ngInsert_count_ne (rows cols k : ℕ) (c : Ix) (d : Ix → List ℕ) (ix : Ix) (i : ℕ)
    (hne : k ≠ i) : (ngInsert rows cols k c d ix).count i = (d ix).count i := by
  unfold ngInsert
  by_cases hb : inBounds rows cols c
  · rw [if_pos hb]
    by_cases hc : ix = c
    · rw [if_pos hc, List.count_append]
      simp [List.count_cons, hne]
    · rw [if_neg hc]
  · rw [if_neg hb]

theorem ngAux_count_lt (rows cols : ℕ) (unit : ℚ) :
    ∀ (ps : List V2) (k : ℕ) (d : Ix → List ℕ) (c : Ix) (i : ℕ), i < k →
      (ngAux rows cols unit k ps d c).count i = (d c).count i := by
  intro ps
  induction ps with
  | nil => intro k d c i _; rfl
  | cons p t ih =>
      intro k d c i hik
      show (ngAux rows cols unit (k + 1) t (ngInsert rows cols k (ngCell unit p) d) c).count i =
        (d c).count i
      rw [ih (k + 1) _ c i (Nat.lt_succ_of_lt hik)]
      exact ngInsert_count_ne rows cols k _ d c i (Nat.ne_of_gt hik)

theorem ngAux_count_get (rows cols : ℕ) (unit : ℚ) :
    ∀ (ps : List V2) (k : ℕ) (d : Ix → List ℕ) (c : Ix) (j : ℕ) (hj : j < ps.length),
      (ngAux rows cols unit k ps d c).count (k + j) =
        (d c).count (k + j) +
          (if inBounds rows cols (ngCell unit (ps.get ⟨j, hj⟩)) ∧
              c = ngCell unit (ps.get ⟨j, hj⟩) then 1 else 0) := by
  intro ps
  induction ps with
  | nil => intro _ _ _ j hj; exact absurd hj (Nat.not_lt_zero j)
  | cons p t ih =>
      intro k d c j hj
      cases j with
      | zero =>
          show (ngAux rows cols unit (k + 1) t (ngInsert rows cols k (ngCell unit p) d) c).count
              (k + 0) = _
          rw [Nat.add_zero, ngAux_count_lt rows cols unit t (k + 1) _ c k (Nat.lt_succ_self k)]
          show (ngInsert rows cols k (ngCell unit p) d c).count k = _
          unfold ngInsert
          by_cases hb : inBounds rows cols (ngCell unit p)
          · rw [if_pos hb]
            by_cases hc : c = ngCell unit p
            · rw [if_pos hc, List.count_append, if_pos ⟨hb, hc⟩]
              simp [List.count_cons]
            · rw [if_neg hc, if_neg (fun hand => hc hand.2)]
              simp
          · rw [if_neg hb, if_neg (fun hand => hb hand.1)]
            simp
      | succ j' =>
          show (ngAux rows cols unit (k + 1) t (ngInsert rows cols k (ngCell unit p) d) c).count
              (k + (j' + 1)) = _
          have harith : k + (j' + 1) = (k + 1) + j' := by omega
          have hj' : j' < t.length := Nat.lt_of_succ_lt_succ hj
          rw [harith, ih (k + 1) _ c j' hj']
          rw [ngInsert_count_ne rows cols k _ d c ((k + 1) + j') (by omega)]
          have hget : (p :: t).get ⟨j' + 1, hj⟩ = t.get ⟨j', hj'⟩ := rfl
          rw [hget]

/-- C3 amended. -/
theorem c3_membership (rows cols : ℕ) (unit : ℚ) (ps : List V2) (i : ℕ) (c : Ix)
    (hu : 0 < unit) (hi : i < ps.length) :
    (ngUpdate rows cols unit ps c).count i =
      if inBounds rows cols (ngCell unit (ps.get ⟨i, hi⟩)) ∧
          c = ngCell unit (ps.get ⟨i, hi⟩) then 1 else 0 := by
  have h := ngAux_count_get rows cols unit ps 0 (fun _ => []) c i hi
  rw [Nat.zero_add] at h
  rw [ngUpdate, h]
  simp

/-- Single position with a negative x coordinate, for the neighbor-grid
cell claim. -/
def c3ps : List V2 := [⟨-1 / 2, 1 / 2⟩]

/-- Single position beyond the grid extent, for the neighbor-grid cell
claim. -/
def c3psFar : List V2 := [⟨11 / 2, 1 / 2⟩]

/-- C3 counterexample. -/
theorem c3_counterexample :
    ⌊((-1 : ℚ) / 2) / 1⌋ = -1 ∧
    (ngUpdate 2 2 1 c3ps ⟨-1, 0⟩).count 0 = 0 ∧
    (ngUpdate 2 2 1 c3ps ⟨0, 0⟩).count 0 = 1 ∧
    ⌊((11 : ℚ) / 2) / 1⌋ = 5 ∧
    (ngUpdate 2 2 1 c3psFar ⟨5, 0⟩).count 0 = 0 := by
  have hcell1 : ngCell 1 ⟨-1 / 2, 1 / 2⟩ = (⟨0, 0⟩ : Ix) := by
    simp only [ngCell, truncQ, Ix.mk.injEq]
    norm_num
  have hcell2 : ngCell 1 ⟨11 / 2, 1 / 2⟩ = (⟨5, 0⟩ : Ix) := by
    simp only [ngCell, truncQ, Ix.mk.injEq]
    norm_num
  refine ⟨by norm_num, ?_, ?_, by norm_num, ?_⟩
  · simp only [c3ps, ngUpdate, ngAux, hcell1]
    decide
  · simp only [c3ps, ngUpdate, ngAux, hcell1]
    decide
  · simp only [c3psFar, ngUpdate, ngAux, hcell2]
    decide

/-- Single in-grid position for the neighbor-grid witness. -/
def c3wps : List V2 := [⟨1 / 2, 1 / 2⟩]

/-- C3 witness. -/
theorem c3_witness :
    (0 : ℚ) < 1 ∧ 0 < c3wps.length ∧
      (ngUpdate 2 2 1 c3wps ⟨0, 0⟩).count 0 =
        if inBounds 2 2 (ngCell 1 (c3wps.get ⟨0, Nat.lt_of_sub_eq_succ rfl⟩)) ∧
            (⟨0, 0⟩ : Ix) = ngCell 1 (c3wps.get ⟨0, Nat.lt_of_sub_eq_succ rfl⟩)
        then 1 else 0 :=
  ⟨one_pos, Nat.lt_of_sub_eq_succ rfl,
    c3_membership 2 2 1 c3wps 0 ⟨0, 0⟩ one_pos (Nat.lt_of_sub_eq_succ rfl)⟩

end Pedoni

namespace Pedoni

/-- Pedestrian record of the social-force models (`struct Pedestrian` in
`models/sfm.rs` / `models/sfm_gpu.rs`): position, destination waypoint id,
velocity, desired speed. -/
structure PedQ where
  pos : V2
  dest : ℕ
  vel : V2
  ds : ℚ
deriving DecidableEq, Repr

/-- Default pedestrian (used only to totalize list indexing at in-range
indices). -/
def pedDefault : PedQ := ⟨⟨0, 0⟩, 0, ⟨0, 0⟩, 0⟩

/-- Arrival test of the CPU spawn phase
(`field.get_field_potential(p.destination, p.position) > 0.25`,
`models/sfm.rs` line 69); the panic case of an out-of-range destination id
does not arise at any use in this file. -/
def keepPed (f : FieldQ) (p : PedQ) : Bool :=
  match getPotential f p.dest p.pos with
  | some v => decide ((1 / 4 : ℚ) < v)
  | none => false

/-- Inner loop of the CPU spawn phase over one neighbor-grid cell
(`models/sfm.rs` lines 66-73): append each retained pedestrian to the
sorted buffer and bump the running index. -/
def cpuCellFold (f : FieldQ) (peds : List PedQ) (acc : List PedQ × ℕ) (cell : List ℕ) :
    List PedQ × ℕ :=
  cell.foldl
    (fun a j =>
      let p := peds.getD j pedDefault
      if keepPed f p then (a.1 ++ [p], a.2 + 1) else a)
    acc

/-- CPU spawn phase, neighbor-grid branch (`models/sfm.rs` lines 58-77):
walk the cells in row-major order, keep only pedestrians whose destination
potential exceeds 0.25, and record the cumulative retained count after
each cell in `neighbor_grid_indices` (which starts with 0). -/
def cpuSpawnSort (f : FieldQ) (peds : List PedQ) (cells : List (List ℕ)) :
    List PedQ × List ℕ :=
  let r :=
    cells.foldl
      (fun (st : List PedQ × List ℕ × ℕ) cell =>
        let r := cpuCellFold f peds (st.1, st.2.2) cell
        (r.1, st.2.1 ++ [r.2], r.2))
      ([], [0], 0)
  (r.1, r.2.1)

/-- GPU host spawn phase (`models/sfm_gpu.rs` lines 105-174): every
pedestrian is re-filed in cell order with no arrival filter (the
`update_only_active` call is commented out), and `neighbor_grid_indices`
receives the raw per-cell lengths after the leading 0 — not cumulative
offsets. -/
def gpuSpawnSort (peds : List PedQ) (cells : List (List ℕ)) : List PedQ × List ℕ :=
  (cells.foldl (fun acc cell => acc ++ cell.map (fun j => peds.getD j pedDefault)) [],
    cells.foldl (fun acc cell => acc ++ [cell.length]) [0])

/-- Row-major flattening of the neighbor grid's cells
(`neighbor_grid.data.iter()` order), built from the embedded
`NeighborGrid::update`. -/
def cellsRowMajor (rows cols : ℕ) (unit : ℚ) (ps : List V2) : List (List ℕ) :=
  (List.range (rows * cols)).map
    (fun k => ngUpdate rows cols unit ps ⟨((k % cols : ℕ) : ℤ), ((k / cols : ℕ) : ℤ)⟩)

/-- Potential map for the spawn-divergence instance: 0 at cell (0,0)
(arrived), 2 elsewhere. -/
def c1grid : GridQ := ⟨2, 2, fun x y => if x = 0 ∧ y = 0 then 0 else 2⟩

/-- Field for the spawn-divergence instance. -/
def c1field : FieldQ := ⟨1, [c1grid]⟩

/-- Pedestrian 0: in cell (1,1), destination potential 2. -/
def c1p0 : PedQ := ⟨⟨3 / 2, 3 / 2⟩, 0, ⟨0, 0⟩, 1⟩

/-- Pedestrian 1: same cell and potential as pedestrian 0. -/
def c1p1 : PedQ := ⟨⟨3 / 2, 3 / 2⟩, 0, ⟨0, 0⟩, 1⟩

/-- Pedestrian 2: in cell (0,0), destination potential 0 (arrived). -/
def c1p2 : PedQ := ⟨⟨1 / 2, 1 / 2⟩, 0, ⟨0, 0⟩, 1⟩

/-- The three pedestrians of the spawn-divergence instance. -/
def c1peds : List PedQ := [c1p0, c1p1, c1p2]

/-- Their positions, as fed to `NeighborGrid::update`. -/
def c1positions : List V2 := [⟨3 / 2, 3 / 2⟩, ⟨3 / 2, 3 / 2⟩, ⟨1 / 2, 1 / 2⟩]

/-- The resulting neighbor-grid cells in row-major order. -/
def c1cells : List (List ℕ) := cellsRowMajor 2 2 1 c1positions

/-- C1. -/
theorem c1_spawn_divergence :
    c1cells = [[2], [], [], [0, 1]] ∧
    (cpuSpawnSort c1field c1peds c1cells).2 = [0, 0, 0, 0, 2] ∧
    (gpuSpawnSort c1peds c1cells).2 = [0, 1, 0, 0, 2] ∧
    (cpuSpawnSort c1field c1peds c1cells).1.length = 2 ∧
    (gpuSpawnSort c1peds c1cells).1.length = 3 := by
  have hcellA : ngCell 1 ⟨3 / 2, 3 / 2⟩ = (⟨1, 1⟩ : Ix) := by
    simp only [ngCell, truncQ, Ix.mk.injEq]
    norm_num
  have hcellB : ngCell 1 ⟨1 / 2, 1 / 2⟩ = (⟨0, 0⟩ : Ix) := by
    simp only [ngCell, truncQ, Ix.mk.injEq]
    norm_num
  have hcells : c1cells = [[2], [], [], [0, 1]] := by
    simp only [c1cells, cellsRowMajor, c1positions, ngUpdate, ngAux, hcellA, hcellB]
    decide
  have hk0 : keepPed c1field c1p0 = true := by
    norm_num [keepPed, getPotential, c1field, c1grid, c1p0, bilinear, gget, inBounds, FMAXS,
      List.get?]
  have hk2 : keepPed c1field c1p2 = false := by
    norm_num [keepPed, getPotential, c1field, c1grid, c1p2, bilinear, gget, inBounds, FMAXS,
      List.get?]
  have hk1 : keepPed c1field c1p1 = true := hk0
  refine ⟨hcells, ?_, ?_, ?_, ?_⟩ <;>
    simp [hcells, cpuSpawnSort, cpuCellFold, gpuSpawnSort, c1peds, List.getD, hk0, hk1, hk2]

/-- Outcome of one GPU tick as observed by the caller of
`SocialForceModelGpu::update_states`. -/
inductive GpuTickOutcome where
  | panicked (msg : String)
  | completed (peds : List PedQ)
deriving DecidableEq

/-- Embedding of `SocialForceModelGpu::update_states` (`models/sfm_gpu.rs`
lines 176-192): the kernel dispatch result (success with an acceleration
buffer, or an OpenCL error) is consumed with `.unwrap()`, so an error
aborts the tick by panic; on success every pedestrian is integrated with
`gpuIntegrate`. -/
def gpuUpdateStates (sq : ℚ → ℚ) (peds : List PedQ) (kres : Except String (List V2)) :
    GpuTickOutcome :=
  match kres with
  | .error e => .panicked e
  | .ok accs =>
      .completed ((List.range peds.length).map
        (fun i =>
          let p := peds.getD i pedDefault
          let a := accs.getD i ⟨0, 0⟩
          let r := gpuIntegrate sq p.pos p.vel a p.ds
          { p with pos := r.1, vel := r.2 }))

/-- C5. -/
theorem c5_dispatch_error_panics (sq : ℚ → ℚ) (peds : List PedQ) (e : String) :
    gpuUpdateStates sq peds (Except.error e) = GpuTickOutcome.panicked e := rfl

/-- Embedding of `glam::Vec2::normalize` in exact arithmetic: the zero
vector has no direction, and the all-NaN result the release build produces
for it is modelled as `none`; otherwise scale by the reciprocal square
root of the squared length. -/
def normalizeOpt (sq : ℚ → ℚ) (v : V2) : Option V2 :=
  if lengthSq v = 0 then none else some (smulQ (sq (lengthSq v))⁻¹ v)

/-- Embedding of `util::line_with_width` (`pedoni-simulator/src/util.rs`
lines 89-94): normalize the segment direction with no zero-length guard,
then offset both endpoints by the half-width normal.  A degenerate segment
makes every vertex NaN (`none`). -/
def lineWithWidth (sq : ℚ → ℚ) (l0 l1 : V2) (width : ℚ) : Option (List V2) :=
  match normalizeOpt sq (l1 - l0) with
  | none => none
  | some a =>
      let b := smulQ ((1 / 2) * width) ⟨a.y, -a.x⟩
      some [l0 - b, l0 + b, l1 + b, l1 - b]

/-- C9. -/
theorem c9_degenerate_segment_nan (sq : ℚ → ℚ) (p : V2) (w : ℚ) :
    lineWithWidth sq p p w = none := by
  have hz : lengthSq (p - p) = 0 := by
    cases p with
    | mk a b => simp [lengthSq, V2.sub_def]
  unfold lineWithWidth normalizeOpt
  rw [if_pos hz]

end Pedoni

namespace Pedoni

/-- Exact value of `f32::MAX`, the sentinel used by `apply_fmm` for
out-of-grid or unavailable upwind values. -/
def MAXF : ℚ := 2 ^ 128 - 2 ^ 104

/-- State of the fast-marching solver: the tentative potential grid, the
accepted flags (`accepted` in `apply_fmm`), and the priority queue
(`BinaryHeap<(Reverse<NotNan<f32>>, Index)>`), modelled as a list sorted
in pop order. -/
structure FMMState where
  pot : Ix → ℚ
  acc : Ix → Bool
  queue : List (ℚ × Ix)

/-- Pointwise update of a potential grid. -/
def setQ (f : Ix → ℚ) (ix : Ix) (v : ℚ) : Ix → ℚ := fun j => if j = ix then v else f j

/-- Mark a cell accepted. -/
def setB (f : Ix → Bool) (ix : Ix) : Ix → Bool := fun j => if j = ix then true else f j

/-- Checked read of the potential grid (`potential.get(ix)`). -/
def potGet (rows cols : ℕ) (pot : Ix → ℚ) (ix : Ix) : Option ℚ :=
  if inBounds rows cols ix then some (pot ix) else none

/-- Checked read of the accepted grid (`accepted.get(ix)`). -/
def accGet (rows cols : ℕ) (acc : Ix → Bool) (ix : Ix) : Option Bool :=
  if inBounds rows cols ix then some (acc ix) else none

/-- Pop priority of the source heap: `(Reverse(NotNan(u)), Index)` pops
its maximum, i.e. the smallest potential first, ties broken toward the
lexicographically largest `Index { y, x }`.  `popsBefore a b` holds when
`a` pops no later than `b`. -/
def popsBefore (a b : ℚ × Ix) : Bool :=
  decide (a.1 < b.1 ∨ (a.1 = b.1 ∧ (b.2.y < a.2.y ∨ (a.2.y = b.2.y ∧ b.2.x ≤ a.2.x))))

/-- Insertion into the pop-ordered queue model of the binary heap. -/
def insertQ (e : ℚ × Ix) : List (ℚ × Ix) → List (ℚ × Ix)
  | [] => [e]
  | a :: t => if popsBefore a e then a :: insertQ e t else e :: a :: t

/-- The four neighbor offsets `[(-1, 0), (1, 0), (0, -1), (0, 1)]` of
`apply_fmm`, as `(j, i)` pairs: the neighbor of `ix` is `ix.add(i, j)`. -/
def offsets : List (ℤ × ℤ) := [(-1, 0), (1, 0), (0, -1), (0, 1)]

/-- Seeding of one neighbor during the initial scan (`field.rs` lines
134-143): if the neighbor is in bounds and its potential is nonzero, set
its potential to the local cost and push it. -/
def initNeighbor (rows cols : ℕ) (f : Ix → ℚ) (ix : Ix) (st : FMMState) (ji : ℤ × ℤ) :
    FMMState :=
  let nix := ix.add ji.2 ji.1
  match potGet rows cols st.pot nix with
  | none => st
  | some pv =>
      if pv ≠ 0 then
        { st with pot := setQ st.pot nix (f nix), queue := insertQ (f nix, nix) st.queue }
      else st

/-- One cell of the initial scan (`field.rs` lines 128-146): a cell whose
current potential is zero is accepted and its four neighbors are
seeded. -/
def initCell (rows cols : ℕ) (f : Ix → ℚ) (st : FMMState) (ix : Ix) : FMMState :=
  if st.pot ix = 0 then
    offsets.foldl (initNeighbor rows cols f ix) { st with acc := setB st.acc ix }
  else st

/-- All in-bounds cells in the `for y { for x { … } }` scan order. -/
def cellsList (rows cols : ℕ) : List Ix :=
  (List.range (rows * cols)).map
    (fun k => ⟨((k % cols : ℕ) : ℤ), ((k / cols : ℕ) : ℤ)⟩)

/-- The complete initial scan of `apply_fmm`, starting from the caller's
potential grid with nothing accepted and an empty queue. -/
def initScan (rows cols : ℕ) (pot0 f : Ix → ℚ) : FMMState :=
  (cellsList rows cols).foldl (initCell rows cols f) ⟨pot0, fun _ => false, []⟩

/-- Upwind update formula of `apply_fmm` (`field.rs` lines 173-184): one
available axis adds the local cost; two available axes solve the
discretized eikonal quadratic when its discriminant `sq` is nonnegative
and fall back to `min + f` otherwise.  `f32::MAX` marks an unavailable
axis and `sq` stands for `f32::sqrt`. -/
def upwindValue (sq : ℚ → ℚ) (u1 u2 fv : ℚ) : ℚ :=
  if u1 = MAXF then u2 + fv
  else if u2 = MAXF then u1 + fv
  else
    let sqv := 2 * fv * fv - (u1 - u2) ^ 2
    if 0 ≤ sqv then (u1 + u2 + sq sqv) / 2 else min u1 u2 + fv

/-- Conditional update-and-push of `apply_fmm` (`field.rs` lines 186-189):
write the new tentative value and push it only on strict improvement. -/
def relaxWrite (st : FMMState) (nix : Ix) (un : ℚ) : FMMState :=
  if un < st.pot nix then
    { st with pot := setQ st.pot nix un, queue := insertQ (un, nix) st.queue }
  else st

/-- Relaxation of one neighbor of a just-accepted cell (`field.rs` lines
156-190): skip out-of-bounds or accepted neighbors; otherwise combine the
popped value `u` with the best potential on the orthogonal axis
(substituting `f32::MAX` when unavailable) through the upwind formula,
and update-and-push only on strict improvement. -/
def relaxNeighbor (rows cols : ℕ) (f : Ix → ℚ) (sq : ℚ → ℚ) (u : ℚ) (ix : Ix)
    (st : FMMState) (ji : ℤ × ℤ) : FMMState :=
  let nix := ix.add ji.2 ji.1
  match accGet rows cols st.acc nix with
  | none => st
  | some true => st
  | some false =>
      let fv := f nix
      let u12 : ℚ × ℚ :=
        if ji.1 = 0 then
          let u2a := (potGet rows cols st.pot (nix.add 0 (-1))).getD MAXF
          let u2b := (potGet rows cols st.pot (nix.add 0 1)).getD MAXF
          (u, min u2a u2b)
        else
          let u1a := (potGet rows cols st.pot (nix.add (-1) 0)).getD MAXF
          let u1b := (potGet rows cols st.pot (nix.add 1 0)).getD MAXF
          (min u1a u1b, u)
      relaxWrite st nix (upwindValue sq u12.1 u12.2 fv)

/-- The marching loop of `apply_fmm` (`field.rs` lines 148-191), with an
explicit fuel argument standing in for the `while let` loop; `apply_fmm`
supplies fuel exceeding the total number of queue entries any run can
produce, so the fuelled loop always drains the queue.  A popped entry
whose cell is already accepted is discarded (stale entry); otherwise the
cell is accepted and its four neighbors relaxed. -/
def fmmLoop (rows cols : ℕ) (f : Ix → ℚ) (sq : ℚ → ℚ) : ℕ → FMMState → FMMState
  | 0, st => st
  | Nat.succ fuel, st =>
      match st.queue with
      | [] => st
      | (u, ix) :: rest =>
          if st.acc ix then fmmLoop rows cols f sq fuel { st with queue := rest }
          else
            fmmLoop rows cols f sq fuel
              (offsets.foldl (relaxNeighbor rows cols f sq u ix)
                { st with acc := setB st.acc ix, queue := rest })

/-- Embedding of `apply_fmm` (`pedoni-simulator/src/field.rs` lines
118-192) on a `rows × cols` grid: the initial seeding scan followed by the
marching loop.  Every accepted cell pushes at most four entries and the
scan at most four per cell, so `8·rows·cols + 8` units of fuel strictly
exceed the number of pops any run performs. -/
def apply_fmm (rows cols : ℕ) (pot0 f : Ix → ℚ) (sq : ℚ → ℚ) : Ix → ℚ :=
  (fmmLoop rows cols f sq (8 * rows * cols + 8) (initScan rows cols pot0 f)).pot

end Pedoni

namespace Pedoni

theorem foldl_preserve {α β : Type} (P : α → Prop) (step : α → β → α)
    (hstep : ∀ a b, P a → P (step a b)) :
    ∀ (l : List β) (s : α), P s → P (l.foldl step s) := by
  intro l
  induction l with
  | nil => intro s hs; exact hs
  | cons b t ih => intro s hs; exact ih _ (hstep s b hs)

/-- Zero cells of the input grid still carry potential zero. -/
def ZeroPot (pot0 : Ix → ℚ) (st : FMMState) : Prop :=
  ∀ ix, pot0 ix = 0 → st.pot ix = 0

theorem potGet_eq_some {rows cols : ℕ} {pot : Ix → ℚ} {ix : Ix} {v : ℚ}
    (h : potGet rows cols pot ix = some v) : inBounds rows cols ix ∧ pot ix = v := by
  unfold potGet at h
  split at h
  · exact ⟨by assumption, (Option.some.injEq _ _).mp h⟩
  · exact absurd h (by simp)

theorem accGet_eq_some {rows cols : ℕ} {acc : Ix → Bool} {ix : Ix} {b : Bool}
    (h : accGet rows cols acc ix = some b) : inBounds rows cols ix ∧ acc ix = b := by
  unfold accGet at h
  split at h
  · exact ⟨by assumption, (Option.some.injEq _ _).mp h⟩
  · exact absurd h (by simp)

theorem initNeighbor_acc (rows cols : ℕ) (f : Ix → ℚ) (ix : Ix) (st : FMMState)
    (ji : ℤ × ℤ) : (initNeighbor rows cols f ix st ji).acc = st.acc := by
  unfold initNeighbor
  dsimp only
  cases potGet rows cols st.pot (ix.add ji.2 ji.1) with
  | none => rfl
  | some pv =>
      dsimp only
      split <;> rfl

theorem relaxWrite_acc (st : FMMState) (nix : Ix) (un : ℚ) :
    (relaxWrite st nix un).acc = st.acc := by
  unfold relaxWrite
  split <;> rfl

theorem relaxNeighbor_acc (rows cols : ℕ) (f : Ix → ℚ) (sq : ℚ → ℚ) (u : ℚ) (ix : Ix)
    (st : FMMState) (ji : ℤ × ℤ) :
    (relaxNeighbor rows cols f sq u ix st ji).acc = st.acc := by
  unfold relaxNeighbor
  dsimp only
  cases accGet rows cols st.acc (ix.add ji.2 ji.1) with
  | none => rfl
  | some b =>
      cases b with
      | true => rfl
      | false => exact relaxWrite_acc _ _ _

theorem initNeighbor_zero {pot0 : Ix → ℚ} (rows cols : ℕ) (f : Ix → ℚ) (ix : Ix)
    (st : FMMState) (ji : ℤ × ℤ) (h : ZeroPot pot0 st) :
    ZeroPot pot0 (initNeighbor rows cols f ix st ji) := by
  intro z hz
  unfold initNeighbor
  dsimp only
  cases hp : potGet rows cols st.pot (ix.add ji.2 ji.1) with
  | none => exact h z hz
  | some pv =>
      dsimp only
      split
      · show setQ st.pot (ix.add ji.2 ji.1) (f (ix.add ji.2 ji.1)) z = 0
        unfold setQ
        by_cases hzx : z = ix.add ji.2 ji.1
        · exfalso
          have hpv : pv ≠ 0 := by assumption
          apply hpv
          have hv := (potGet_eq_some hp).2
          rw [← hv, ← hzx]
          exact h z hz
        · rw [if_neg hzx]
          exact h z hz
      · exact h z hz

theorem initCell_zero {pot0 : Ix → ℚ} (rows cols : ℕ) (f : Ix → ℚ) (st : FMMState)
    (ix : Ix) (h : ZeroPot pot0 st) : ZeroPot pot0 (initCell rows cols f st ix) := by
  unfold initCell
  split
  · exact foldl_preserve (ZeroPot pot0) (initNeighbor rows cols f ix)
      (fun a b ha => initNeighbor_zero rows cols f ix a b ha) offsets _ h
  · exact h

theorem foldl_initNeighbor_acc (rows cols : ℕ) (f : Ix → ℚ) (ix : Ix) :
    ∀ (l : List (ℤ × ℤ)) (st : FMMState),
      (l.foldl (initNeighbor rows cols f ix) st).acc = st.acc := by
  intro l
  induction l with
  | nil => intro st; rfl
  | cons a t ih => intro st; rw [List.foldl_cons, ih, initNeighbor_acc]

theorem initCell_accMono (rows cols : ℕ) (f : Ix → ℚ) (st : FMMState) (ix z : Ix)
    (h : st.acc z = true) : (initCell rows cols f st ix).acc z = true := by
  unfold initCell
  split
  · rw [foldl_initNeighbor_acc]
    show setB st.acc ix z = true
    unfold setB
    by_cases hz : z = ix
    · rw [if_pos hz]
    · rw [if_neg hz]; exact h
  · exact h

theorem initCell_accepts {pot0 : Ix → ℚ} (rows cols : ℕ) (f : Ix → ℚ) (st : FMMState)
    (ix : Ix) (hst : ZeroPot pot0 st) (hz : pot0 ix = 0) :
    (initCell rows cols f st ix).acc ix = true := by
  unfold initCell
  rw [if_pos (hst ix hz), foldl_initNeighbor_acc]
  show setB st.acc ix ix = true
  unfold setB
  rw [if_pos rfl]

theorem initScan_fold_props {pot0 : Ix → ℚ} (rows cols : ℕ) (f : Ix → ℚ) :
    ∀ (l : List Ix) (st : FMMState), ZeroPot pot0 st →
      ZeroPot pot0 (l.foldl (initCell rows cols f) st) ∧
      (∀ z, st.acc z = true → (l.foldl (initCell rows cols f) st).acc z = true) ∧
      (∀ c ∈ l, pot0 c = 0 → (l.foldl (initCell rows cols f) st).acc c = true) := by
  intro l
  induction l with
  | nil =>
      intro st hst
      exact ⟨hst, fun z h => h, fun c hc => absurd hc (List.not_mem_nil c)⟩
  | cons a t ih =>
      intro st hst
      have hza : ZeroPot pot0 (initCell rows cols f st a) :=
        initCell_zero rows cols f st a hst
      obtain ⟨h1, h2, h3⟩ := ih (initCell rows cols f st a) hza
      refine ⟨h1, ?_, ?_⟩
      · intro z hz
        exact h2 z (initCell_accMono rows cols f st a z hz)
      · intro c hc hc0
        rcases List.mem_cons.mp hc with rfl | hmem
        · exact h2 c (initCell_accepts rows cols f st c hst hc0)
        · exact h3 c hmem hc0

theorem mem_cellsList (rows cols : ℕ) (ix : Ix) (h : inBounds rows cols ix) :
    ix ∈ cellsList rows cols := by
  obtain ⟨hx0, hx1, hy0, hy1⟩ := h
  have hcols : 0 < cols := by omega
  have hxn : ix.x.toNat < cols := by omega
  have hyn : ix.y.toNat < rows := by omega
  refine List.mem_map.mpr ⟨ix.y.toNat * cols + ix.x.toNat, List.mem_range.mpr ?_, ?_⟩
  · calc ix.y.toNat * cols + ix.x.toNat < ix.y.toNat * cols + cols := by omega
      _ = (ix.y.toNat + 1) * cols := by ring
      _ ≤ rows * cols := Nat.mul_le_mul_right cols (by omega)
  · have hmod : (ix.y.toNat * cols + ix.x.toNat) % cols = ix.x.toNat := by
      rw [Nat.add_comm, Nat.add_mul_mod_self_right, Nat.mod_eq_of_lt hxn]
    have hdiv : (ix.y.toNat * cols + ix.x.toNat) / cols = ix.y.toNat := by
      rw [Nat.add_comm, Nat.add_mul_div_right _ _ hcols, Nat.div_eq_of_lt hxn,
        Nat.zero_add]
    rw [hmod, hdiv]
    cases ix with
    | mk x y =>
        simp only [Ix.mk.injEq]
        exact ⟨Int.toNat_of_nonneg hx0, Int.toNat_of_nonneg hy0⟩

/-- Invariant carried through the marching loop for the seed-preservation
claim: zero cells keep potential zero and every in-bounds zero cell is
already accepted. -/
def LoopZeroInv (rows cols : ℕ) (pot0 : Ix → ℚ) (st : FMMState) : Prop :=
  ZeroPot pot0 st ∧ ∀ z, inBounds rows cols z → pot0 z = 0 → st.acc z = true

theorem relaxWrite_zeroPot {pot0 : Ix → ℚ} (st : FMMState) (nix : Ix) (un : ℚ)
    (h : ZeroPot pot0 st) (hn : pot0 nix ≠ 0) : ZeroPot pot0 (relaxWrite st nix un) := by
  intro z hz
  unfold relaxWrite
  split
  · show setQ st.pot nix un z = 0
    unfold setQ
    by_cases hzx : z = nix
    · exact absurd (hzx ▸ hz) hn
    · rw [if_neg hzx]
      exact h z hz
  · exact h z hz

theorem relaxNeighbor_loopZero (rows cols : ℕ) (pot0 f : Ix → ℚ) (sq : ℚ → ℚ) (u : ℚ)
    (ix : Ix) (st : FMMState) (ji : ℤ × ℤ) (h : LoopZeroInv rows cols pot0 st) :
    LoopZeroInv rows cols pot0 (relaxNeighbor rows cols f sq u ix st ji) := by
  constructor
  · unfold relaxNeighbor
    dsimp only
    cases hag : accGet rows cols st.acc (ix.add ji.2 ji.1) with
    | none => exact h.1
    | some b =>
        cases b with
        | true => exact h.1
        | false =>
            apply relaxWrite_zeroPot _ _ _ h.1
            intro hz0
            obtain ⟨hin, hacc⟩ := accGet_eq_some hag
            rw [h.2 _ hin hz0] at hacc
            exact Bool.noConfusion hacc
  · intro z hin hz
    rw [relaxNeighbor_acc]
    exact h.2 z hin hz

theorem fmmLoop_loopZero (rows cols : ℕ) (pot0 f : Ix → ℚ) (sq : ℚ → ℚ) :
    ∀ (fuel : ℕ) (st : FMMState), LoopZeroInv rows cols pot0 st →
      LoopZeroInv rows cols pot0 (fmmLoop rows cols f sq fuel st) := by
  intro fuel
  induction fuel with
  | zero => intro st h; exact h
  | succ n ih =>
      intro st h
      unfold fmmLoop
      cases hq : st.queue with
      | nil => exact h
      | cons e rest =>
          cases e with
          | mk u ix =>
              dsimp only
              by_cases hacc : st.acc ix = true
              · rw [if_pos hacc]
                exact ih _ ⟨h.1, h.2⟩
              · rw [if_neg hacc]
                apply ih
                apply foldl_preserve (LoopZeroInv rows cols pot0)
                  (relaxNeighbor rows cols f sq u ix)
                  (fun a b ha => relaxNeighbor_loopZero rows cols pot0 f sq u ix a b ha)
                constructor
                · exact h.1
                · intro z hin hz
                  show setB st.acc ix z = true
                  unfold setB
                  by_cases hzx : z = ix
                  · rw [if_pos hzx]
                  · rw [if_neg hzx]
                    exact h.2 z hin hz

/-- Seed cells of `apply_fmm` are accepted during the initial scan and
never rewritten afterwards. -/
theorem fmm_zero_preserved (rows cols : ℕ) (pot0 f : Ix → ℚ) (sq : ℚ → ℚ) (ix : Ix)
    (h : pot0 ix = 0) : apply_fmm rows cols pot0 f sq ix = 0 := by
  have hstart : ZeroPot pot0 (⟨pot0, fun _ => false, []⟩ : FMMState) := fun z hz => hz
  obtain ⟨h1, _, h3⟩ :=
    initScan_fold_props rows cols f (cellsList rows cols) ⟨pot0, fun _ => false, []⟩ hstart
  have hinv : LoopZeroInv rows cols pot0 (initScan rows cols pot0 f) := by
    refine ⟨h1, ?_⟩
    intro z hin hz
    exact h3 z (mem_cellsList rows cols z hin) hz
  have hfinal :=
    fmmLoop_loopZero rows cols pot0 f sq (8 * rows * cols + 8)
      (initScan rows cols pot0 f) hinv
  exact hfinal.1 ix h

/-- C8. -/
theorem c8_seed_cells_stay_zero (rows cols : ℕ) (pot0 f : Ix → ℚ) (sq : ℚ → ℚ)
    (ix : Ix) (h : pot0 ix = 0) : apply_fmm rows cols pot0 f sq ix = 0 :=
  fmm_zero_preserved rows cols pot0 f sq ix h

/-- Input potential for the C8 witness: a single seed at the origin of a
2×2 grid, background `f32::MAX`. -/
def c8pot : Ix → ℚ := fun ix => if ix = ⟨0, 0⟩ then 0 else MAXF

/-- C8 witness. -/
theorem c8_witness :
    c8pot ⟨0, 0⟩ = 0 ∧ apply_fmm 2 2 c8pot (fun _ => 1) (fun _ => 0) ⟨0, 0⟩ = 0 :=
  ⟨if_pos rfl, c8_seed_cells_stay_zero 2 2 c8pot (fun _ => 1) (fun _ => 0) ⟨0, 0⟩ (if_pos rfl)⟩

end Pedoni

namespace Pedoni

theorem MAXF_nonneg : (0 : ℚ) ≤ MAXF := by norm_num [MAXF]

/-- All tentative potentials and all queued keys are nonnegative. -/
def NonnegInv (st : FMMState) : Prop :=
  (∀ ix, 0 ≤ st.pot ix) ∧ ∀ e ∈ st.queue, 0 ≤ e.1

theorem mem_insertQ {e x : ℚ × Ix} :
    ∀ {l : List (ℚ × Ix)}, x ∈ insertQ e l → x = e ∨ x ∈ l := by
  intro l
  induction l with
  | nil =>
      intro h
      rcases List.mem_cons.mp h with h1 | h1
      · exact Or.inl h1
      · exact absurd h1 (List.not_mem_nil x)
  | cons a t ih =>
      intro h
      unfold insertQ at h
      split at h
      · rcases List.mem_cons.mp h with rfl | ht
        · exact Or.inr (List.mem_cons_self x t)
        · rcases ih ht with h2 | h2
          · exact Or.inl h2
          · exact Or.inr (List.mem_cons_of_mem a h2)
      · rcases List.mem_cons.mp h with h2 | h2
        · exact Or.inl h2
        · exact Or.inr h2

theorem potGet_getD_nonneg (rows cols : ℕ) (pot : Ix → ℚ) (ix : Ix)
    (hpot : ∀ z, 0 ≤ pot z) : 0 ≤ (potGet rows cols pot ix).getD MAXF := by
  unfold potGet
  split
  · exact hpot ix
  · exact MAXF_nonneg

theorem upwindValue_nonneg (sq : ℚ → ℚ) (u1 u2 fv : ℚ)
    (hsq : ∀ x, 0 ≤ x → 0 ≤ sq x) (h1 : 0 ≤ u1) (h2 : 0 ≤ u2) (hf : 0 ≤ fv) :
    0 ≤ upwindValue sq u1 u2 fv := by
  unfold upwindValue
  split
  · exact add_nonneg h2 hf
  · split
    · exact add_nonneg h1 hf
    · dsimp only
      split
      · have hs := hsq _ (by assumption)
        linarith
      · exact add_nonneg (le_min h1 h2) hf

theorem relaxWrite_nonneg (st : FMMState) (nix : Ix) (un : ℚ) (hst : NonnegInv st)
    (hun : 0 ≤ un) : NonnegInv (relaxWrite st nix un) := by
  unfold relaxWrite
  split
  · constructor
    · intro z
      show 0 ≤ setQ st.pot nix un z
      unfold setQ
      by_cases hz : z = nix
      · rw [if_pos hz]; exact hun
      · rw [if_neg hz]; exact hst.1 z
    · intro e he
      rcases mem_insertQ he with rfl | h2
      · exact hun
      · exact hst.2 e h2
  · exact hst

theorem relaxNeighbor_nonneg (rows cols : ℕ) (f : Ix → ℚ) (sq : ℚ → ℚ) (u : ℚ)
    (ix : Ix) (st : FMMState) (ji : ℤ × ℤ) (hu : 0 ≤ u) (hf : ∀ z, 0 ≤ f z)
    (hsq : ∀ x, 0 ≤ x → 0 ≤ sq x) (hst : NonnegInv st) :
    NonnegInv (relaxNeighbor rows cols f sq u ix st ji) := by
  unfold relaxNeighbor
  dsimp only
  cases accGet rows cols st.acc (ix.add ji.2 ji.1) with
  | none => exact hst
  | some b =>
      cases b with
      | true => exact hst
      | false =>
          apply relaxWrite_nonneg _ _ _ hst
          by_cases hj : ji.1 = 0
          · simp only [if_pos hj]
            exact upwindValue_nonneg sq _ _ _ hsq hu
              (le_min (potGet_getD_nonneg rows cols st.pot _ hst.1)
                (potGet_getD_nonneg rows cols st.pot _ hst.1))
              (hf _)
          · simp only [if_neg hj]
            exact upwindValue_nonneg sq _ _ _ hsq
              (le_min (potGet_getD_nonneg rows cols st.pot _ hst.1)
                (potGet_getD_nonneg rows cols st.pot _ hst.1))
              hu (hf _)

theorem initNeighbor_nonneg (rows cols : ℕ) (f : Ix → ℚ) (ix : Ix) (st : FMMState)
    (ji : ℤ × ℤ) (hf : ∀ z, 0 ≤ f z) (hst : NonnegInv st) :
    NonnegInv (initNeighbor rows cols f ix st ji) := by
  unfold initNeighbor
  dsimp only
  cases potGet rows cols st.pot (ix.add ji.2 ji.1) with
  | none => exact hst
  | some pv =>
      dsimp only
      split
      · constructor
        · intro z
          show 0 ≤ setQ st.pot (ix.add ji.2 ji.1) (f (ix.add ji.2 ji.1)) z
          unfold setQ
          by_cases hz : z = ix.add ji.2 ji.1
          · rw [if_pos hz]; exact hf _
          · rw [if_neg hz]; exact hst.1 z
        · intro e he
          rcases mem_insertQ he with rfl | h2
          · exact hf _
          · exact hst.2 e h2
      · exact hst

theorem initCell_nonneg (rows cols : ℕ) (f : Ix → ℚ) (st : FMMState) (ix : Ix)
    (hf : ∀ z, 0 ≤ f z) (hst : NonnegInv st) :
    NonnegInv (initCell rows cols f st ix) := by
  unfold initCell
  split
  · exact foldl_preserve NonnegInv (initNeighbor rows cols f ix)
      (fun a b ha => initNeighbor_nonneg rows cols f ix a b hf ha) offsets _ hst
  · exact hst

theorem fmmLoop_nonneg (rows cols : ℕ) (f : Ix → ℚ) (sq : ℚ → ℚ) (hf : ∀ z, 0 ≤ f z)
    (hsq : ∀ x, 0 ≤ x → 0 ≤ sq x) :
    ∀ (fuel : ℕ) (st : FMMState), NonnegInv st →
      NonnegInv (fmmLoop rows cols f sq fuel st) := by
  intro fuel
  induction fuel with
  | zero => intro st h; exact h
  | succ n ih =>
      intro st h
      unfold fmmLoop
      cases hq : st.queue with
      | nil => exact h
      | cons e rest =>
          cases e with
          | mk u ix =>
              have hu : 0 ≤ u := h.2 (u, ix) (by rw [hq]; exact List.mem_cons_self _ _)
              have hrest : ∀ e ∈ rest, 0 ≤ e.1 :=
                fun e he => h.2 e (by rw [hq]; exact List.mem_cons_of_mem _ he)
              dsimp only
              by_cases hacc : st.acc ix = true
              · rw [if_pos hacc]
                exact ih _ ⟨h.1, hrest⟩
              · rw [if_neg hacc]
                apply ih
                apply foldl_preserve NonnegInv (relaxNeighbor rows cols f sq u ix)
                  (fun a b ha => relaxNeighbor_nonneg rows cols f sq u ix a b hu hf hsq ha)
                exact ⟨h.1, hrest⟩

/-- With nonnegative costs, initial potentials and square roots, every
final potential of `apply_fmm` is nonnegative. -/
theorem fmm_nonneg (rows cols : ℕ) (pot0 f : Ix → ℚ) (sq : ℚ → ℚ)
    (hp : ∀ z, 0 ≤ pot0 z) (hf : ∀ z, 0 ≤ f z) (hsq : ∀ x, 0 ≤ x → 0 ≤ sq x)
    (ix : Ix) : 0 ≤ apply_fmm rows cols pot0 f sq ix := by
  have hstart : NonnegInv (⟨pot0, fun _ => false, []⟩ : FMMState) :=
    ⟨hp, fun e he => absurd he (List.not_mem_nil e)⟩
  have hscan : NonnegInv (initScan rows cols pot0 f) :=
    foldl_preserve NonnegInv (initCell rows cols f)
      (fun a b ha => initCell_nonneg rows cols f a b hf ha) (cellsList rows cols) _ hstart
  exact (fmmLoop_nonneg rows cols f sq hf hsq (8 * rows * cols + 8) _ hscan).1 ix

/-- C2 amended. -/
theorem c2_seed_potential_minimal (rows cols : ℕ) (pot0 f : Ix → ℚ) (sq : ℚ → ℚ)
    (A B : Ix) (hp : ∀ z, 0 ≤ pot0 z) (hf : ∀ z, 0 ≤ f z)
    (hsq : ∀ x, 0 ≤ x → 0 ≤ sq x) (hA : pot0 A = 0) :
    apply_fmm rows cols pot0 f sq A ≤ apply_fmm rows cols pot0 f sq B := by
  rw [fmm_zero_preserved rows cols pot0 f sq A hA]
  exact fmm_nonneg rows cols pot0 f sq hp hf hsq B

/-- Input potential for the C2 witness: a single seed in a 1×2 grid,
background 1. -/
def c2wpot : Ix → ℚ := fun ix => if ix = ⟨0, 0⟩ then 0 else 1

/-- C2 witness. -/
theorem c2_witness :
    (∀ z, (0 : ℚ) ≤ c2wpot z) ∧ (∀ z : Ix, (0 : ℚ) ≤ (fun _ : Ix => (1 : ℚ)) z) ∧
      (∀ x : ℚ, 0 ≤ x → (0 : ℚ) ≤ (fun _ : ℚ => (0 : ℚ)) x) ∧ c2wpot ⟨0, 0⟩ = 0 ∧
      apply_fmm 1 2 c2wpot (fun _ => 1) (fun _ => 0) ⟨0, 0⟩ ≤
        apply_fmm 1 2 c2wpot (fun _ => 1) (fun _ => 0) ⟨1, 0⟩ := by
  have hp : ∀ z, (0 : ℚ) ≤ c2wpot z := by
    intro z
    unfold c2wpot
    split
    · exact le_refl 0
    · exact zero_le_one
  refine ⟨hp, fun z => zero_le_one, fun x _ => le_refl 0, if_pos rfl, ?_⟩
  exact c2_seed_potential_minimal 1 2 c2wpot (fun _ => 1) (fun _ => 0) ⟨0, 0⟩ ⟨1, 0⟩
    hp (fun z => zero_le_one) (fun x _ => le_refl 0) (if_pos rfl)

end Pedoni

namespace Pedoni

/-- Input potential of the C2 counterexample: a 1×5 corridor with the
single seed at cell (2,0) and `f32::MAX` background, exactly as waypoint
maps are seeded. -/
def c2pot : Ix → ℚ := fun ix => if ix = ⟨2, 0⟩ then 0 else MAXF

/-- Traversal costs of the C2 counterexample: cost 10 at cell (3,0), cost
1 elsewhere — positive finite entries, no obstacles. -/
def c2cost : Ix → ℚ := fun ix => if ix = ⟨3, 0⟩ then 10 else 1

/-- Four-connected neighbors of a cell. -/
def nbrsOf (ix : Ix) : List Ix := offsets.map (fun ji => ix.add ji.2 ji.1)

/-- Modelled from the spec: one expansion step of obstacle-free
4-connected reachability. -/
def bfsStep (rows cols : ℕ) (obst : Ix → Bool) (cur : List Ix) : List Ix :=
  cur ++ (cur.flatMap nbrsOf).filter (fun c => decide (inBounds rows cols c) && !obst c)

/-- Modelled from the spec: the set of cells reachable from the seed set
within `n` obstacle-free 4-connected hops — the claim's topological
distance. -/
def bfsReach (rows cols : ℕ) (obst : Ix → Bool) (seeds : List Ix) : ℕ → List Ix
  | 0 => seeds
  | n + 1 => bfsStep rows cols obst (bfsReach rows cols obst seeds n)

set_option maxHeartbeats 2000000 in
/-- C2 counterexample. -/
theorem c2_counterexample :
    c2pot ⟨2, 0⟩ = 0 ∧
    (⟨3, 0⟩ : Ix) ∈ bfsReach 1 5 (fun _ => false) [⟨2, 0⟩] 1 ∧
    (⟨0, 0⟩ : Ix) ∉ bfsReach 1 5 (fun _ => false) [⟨2, 0⟩] 1 ∧
    (⟨0, 0⟩ : Ix) ∈ bfsReach 1 5 (fun _ => false) [⟨2, 0⟩] 2 ∧
    apply_fmm 1 5 c2pot c2cost (fun _ => 0) ⟨0, 0⟩ = 2 ∧
    apply_fmm 1 5 c2pot c2cost (fun _ => 0) ⟨3, 0⟩ = 10 ∧
    ¬ apply_fmm 1 5 c2pot c2cost (fun _ => 0) ⟨3, 0⟩ ≤
        apply_fmm 1 5 c2pot c2cost (fun _ => 0) ⟨0, 0⟩ := by
  have e1 : apply_fmm 1 5 c2pot c2cost (fun _ => 0) ⟨0, 0⟩ = 2 := by
    norm_num [apply_fmm, initScan, cellsList, fmmLoop, initCell, initNeighbor,
      relaxNeighbor, relaxWrite, upwindValue, potGet, accGet, setQ, setB, insertQ,
      popsBefore, offsets, inBounds, c2pot, c2cost, MAXF, Ix.add, Ix.mk.injEq,
      List.range_succ, min_self]
  have e2 : apply_fmm 1 5 c2pot c2cost (fun _ => 0) ⟨3, 0⟩ = 10 := by
    norm_num [apply_fmm, initScan, cellsList, fmmLoop, initCell, initNeighbor,
      relaxNeighbor, relaxWrite, upwindValue, potGet, accGet, setQ, setB, insertQ,
      popsBefore, offsets, inBounds, c2pot, c2cost, MAXF, Ix.add, Ix.mk.injEq,
      List.range_succ, min_self]
  refine ⟨if_pos rfl, by decide, by decide, by decide, e1, e2, ?_⟩
  rw [e1, e2]
  norm_num

end Pedoni
